import Mathlib

/-!
Verification of the ginko-blocks block-region parser and incremental
decoration engine against its specification.

Document text is modelled as `List Char` (the sources operate on ASCII
documents, where JavaScript UTF-16 code units coincide with characters).
Each definition is a direct translation of the corresponding TypeScript
function from `src/editor/_base/basePreviewExtension.ts`,
`src/editor/utils.ts` and `src/editor/tabs/tabsWidget.ts`.
-/

namespace Ginko

/-- Characters of a string literal, the document model. -/
def chars (s : String) : List Char := s.data

/-- Whitespace recognised by the JavaScript string functions used by the
sources (`trim`, the `\s` class); ASCII subset, sufficient for the
documents considered here. -/
def isJsSpace (c : Char) : Bool :=
  c = ' ' || c = '\t' || c = '\n' || c = '\r' || c = '\x0b' || c = '\x0c'

/-- JavaScript `String.prototype.trim`. -/
def jsTrim (s : List Char) : List Char :=
  ((s.dropWhile isJsSpace).reverse.dropWhile isJsSpace).reverse

/-- JavaScript `String.prototype.split` with a one-character separator:
`"".split(c) = [""]`, separators delimit (possibly empty) fields. -/
def splitOnChar (sep : Char) : List Char → List (List Char)
  | [] => [[]]
  | c :: cs =>
    if c = sep then
      [] :: splitOnChar sep cs
    else
      match splitOnChar sep cs with
      | [] => [[c]]
      | l :: ls => (c :: l) :: ls

/-- JavaScript `Array.prototype.join('\n')`, the inverse of `splitOnChar '\n'`. -/
def joinLines : List (List Char) → List Char
  | [] => []
  | [l] => l
  | l :: ls => l ++ '\n' :: joinLines ls

/-- Total length of a block of lines including one newline per line; the
amount by which the scanner position advances past those lines. -/
def linesLen : List (List Char) → Nat
  | [] => 0
  | l :: ls => l.length + 1 + linesLen ls

/-- Clamp an index the way JavaScript `String.prototype.slice` does. -/
def jsSliceIdx (len : Nat) (i : Int) : Nat :=
  if i < 0 then ((len : Int) + i).toNat else min i.toNat len

/-- JavaScript `s.slice(a, b)` on the character-list model. -/
def jsSlice (s : List Char) (a b : Int) : List Char :=
  (s.take (jsSliceIdx s.length b)).drop (jsSliceIdx s.length a)

/-- The pattern occurs in `s` at position `i` (semantic occurrence
predicate used to specify `indexOf`). -/
def matchAt (s pat : List Char) (i : Nat) : Bool :=
  pat.isPrefixOf (s.drop i)

/-- Search loop of JavaScript `String.prototype.indexOf`; `fuel` bounds
the number of candidate positions inspected. -/
def indexOfGo (s pat : List Char) : Nat → Nat → Option Nat
  | _, 0 => none
  | i, fuel + 1 => if matchAt s pat i then some i else indexOfGo s pat (i + 1) fuel

/-- JavaScript `s.indexOf(pat, start)`, returning `none` for `-1`.
For a nonempty pattern and `start ≤ s.length` this agrees with the
JavaScript function. -/
def indexOfFrom (s pat : List Char) (start : Nat) : Option Nat :=
  indexOfGo s pat start (s.length + 1 - start)

/-- Region data produced by the scan, mirroring the `RegionData`
interface of `src/editor/utils.ts`. -/
structure RegionData where
  regionText : List Char
  remainingText : List Char
  startIndex : Nat
  endIndex : Nat
deriving DecidableEq

/-- Loop body of `BasePreviewExtension.parseContent`
(`basePreviewExtension.ts:284-317`).  The stack grows at the head; the
TypeScript `push`/`pop` pair acts on the array end, which is the same
stack discipline.  `contentStart` is an `Int` because the source
initialises it to the sentinel `-1`. -/
def parseContentLoop (text : List Char) :
    List (List Char) → Nat → Int → Int → List (List Char) → List Char →
    Option (List Char × Nat)
  | [], _, _, _, _, _ => none
  | line :: rest, currentPos, contentStart, nestingLevel, stack, initialTag =>
    if jsTrim line = chars "::" then
      match stack with
      | [] =>
        parseContentLoop text rest (currentPos + line.length + 1)
          contentStart nestingLevel [] initialTag
      | lastTag :: stack2 =>
        if nestingLevel - 1 = 0 ∧ lastTag = initialTag then
          some (jsTrim (jsSlice text contentStart ((currentPos : Int) + line.length)),
            currentPos + line.length)
        else
          parseContentLoop text rest (currentPos + line.length + 1)
            contentStart (nestingLevel - 1) stack2 initialTag
    else if (chars "::").isPrefixOf (jsTrim line) then
      let tagName := (jsTrim line).takeWhile fun c => !(isJsSpace c || c = '(')
      let contentStart2 := if contentStart = -1 then (currentPos : Int) else contentStart
      let initialTag2 := if contentStart = -1 then tagName else initialTag
      parseContentLoop text rest (currentPos + line.length + 1)
        contentStart2 (nestingLevel + 1) (tagName :: stack) initialTag2
    else
      parseContentLoop text rest (currentPos + line.length + 1)
        contentStart nestingLevel stack initialTag

/-- The method `BasePreviewExtension.parseContent` (`basePreviewExtension.ts:272-320`):
stack-based line scanner returning the trimmed raw text of the first
complete region opening at or after `startPos` together with its end
offset. -/
def parseContent (text : List Char) (startPos : Nat) : Option (List Char × Nat) :=
  parseContentLoop text (splitOnChar '\n' (text.drop startPos)) startPos (-1) 0 [] []

/-- A filler line: neither an end marker nor a start-tag line. -/
def plainLine (l : List Char) : Prop :=
  '\n' ∉ l ∧ jsTrim l ≠ chars "::" ∧ (chars "::").isPrefixOf (jsTrim l) = false

instance decPlainLine (l : List Char) : Decidable (plainLine l) := by
  unfold plainLine
  infer_instance

/-- The method `BasePreviewExtension.shouldProcessContent`
(`basePreviewExtension.ts:322-333`): skip regions whose first line opens
a fenced code block. -/
def shouldProcessContent (content : List Char) : Bool :=
  match splitOnChar '\n' content with
  | [] => true
  | firstLine :: _ => !((chars "```").isPrefixOf (jsTrim firstLine))

/-- The `while` loop of `BasePreviewExtension.updatePreviews`
(`basePreviewExtension.ts:128-172`): repeatedly locate the next start
tag, run `parseContent`, and emit the region when
`shouldProcessContent` holds and `createDecoration` produced a
decoration (abstracted as the `keep` predicate).  On a parse failure the
position advances by the start tag's length.  `fuel` bounds the number
of iterations; `updatePreviewsRegions` supplies enough fuel for the
whole document (see `updateGo_fuel_high`). -/
def updateGo (docText startTag : List Char) (keep : RegionData → Bool) :
    Nat → Nat → List RegionData
  | _, 0 => []
  | pos, fuel + 1 =>
    if pos < docText.length then
      match indexOfFrom docText startTag pos with
      | none => []
      | some nextTag =>
        match parseContent docText nextTag with
        | some (content, endPos) =>
          let region : RegionData :=
            ⟨content, docText.drop endPos, nextTag, endPos⟩
          if shouldProcessContent content && keep region then
            region :: updateGo docText startTag keep endPos fuel
          else
            updateGo docText startTag keep endPos fuel
        | none => updateGo docText startTag keep (nextTag + startTag.length) fuel
    else []

/-- The regions emitted by one `updatePreviews` build pass
(`basePreviewExtension.ts:118-173`), including the early exit when the
document does not contain the start tag. -/
def updatePreviewsRegions (docText startTag : List Char)
    (keep : RegionData → Bool) : List RegionData :=
  if (indexOfFrom docText startTag 0).isSome then
    updateGo docText startTag keep 0 (docText.length + 1)
  else []

/-- JavaScript `ToInt32` coercion (the effect of `x | 0` / `x & x`). -/
def toInt32 (n : Int) : Int :=
  let m := n % 4294967296
  if m < 2147483648 then m else m - 4294967296

/-- One step of the hash loop in `hashContent` (`utils.ts:52-60`):
`hash = ((hash << 5) - hash) + char; hash = hash & hash`. -/
def hashStep (h : Int) (c : Char) : Int :=
  toInt32 (toInt32 (h * 32) - h + (c.toNat : Int))

/-- Digit characters of `Number.prototype.toString(36)`. -/
def base36Digit (d : Nat) : Char :=
  if d < 10 then Char.ofNat (48 + d) else Char.ofNat (87 + d)

/-- Digit-production loop for `natToBase36`; the fuel bounds the digit
count, and `n + 1` always suffices. -/
def natToBase36Go : Nat → Nat → List Char
  | _, 0 => []
  | n, fuel + 1 =>
    if n < 36 then [base36Digit n]
    else natToBase36Go (n / 36) fuel ++ [base36Digit (n % 36)]

/-- JavaScript `n.toString(36)` for a natural number. -/
def natToBase36 (n : Nat) : List Char :=
  natToBase36Go n (n + 1)

/-- The function `hashContent` (`utils.ts:52-60`): 31-based 32-bit string hash,
rendered as at most eight base-36 digits of its absolute value. -/
def hashContent (str : List Char) : List Char :=
  (natToBase36 (str.foldl hashStep 0).natAbs).take 8

/-- Rendered widget model.  `content`, `id` and `isEditing` are the
constructor arguments of `BaseWidget`/`TabWidget`; `ctorTag` models the
JavaScript constructor identity compared by `collectExistingWidgets`;
`tok` models the object reference, so that reference equality of a
reused instance is visible as equality of `tok`. -/
structure Widget where
  content : List Char
  id : List Char
  isEditing : Bool
  ctorTag : List Char
  tok : Nat
deriving DecidableEq

/-- The call `this.createWidget(...)`: a fresh widget constructed by the
block-type subclass; fresh instances carry reference token `0`. -/
def createWidget (ctorTag content id : List Char) (isEditing : Bool) : Widget :=
  ⟨content, id, isEditing, ctorTag, 0⟩

/-- First-match association-list lookup (JavaScript `Map.prototype.get`;
keys are unique by construction of `setKey`). -/
def lookupKey {β : Type} : List (List Char × β) → List Char → Option β
  | [], _ => none
  | (k1, v) :: rest, k => if k1 = k then some v else lookupKey rest k

/-- JavaScript `Map.prototype.set`: overwrite in place, else append. -/
def setKey {β : Type} : List (List Char × β) → List Char → β → List (List Char × β)
  | [], k, v => [(k, v)]
  | (k1, v1) :: rest, k, v =>
    if k1 = k then (k1, v) :: rest else (k1, v1) :: setKey rest k v

/-- The function `collectExistingWidgets` (`utils.ts:179-199`): walk the previous
decoration set and collect `id → widget` for every widget of the
expected constructor with a truthy (nonempty) id.  The decoration set is
modelled as its ordered list of `(from, to, widget)` entries. -/
def collectExistingWidgets (oldState : List (Nat × Nat × Widget))
    (ctorTag : List Char) : List (List Char × Widget) :=
  oldState.foldl
    (fun m e =>
      if e.2.2.ctorTag = ctorTag ∧ e.2.2.id ≠ [] then setKey m e.2.2.id e.2.2 else m)
    []

/-- The method `BasePreviewExtension.getOrCreateWidget`
(`basePreviewExtension.ts:258-270`). -/
def getOrCreateWidget (ctorTag : List Char) (region : RegionData)
    (id : List Char) (isEditing : Bool)
    (existingWidgets : List (List Char × Widget)) : Widget :=
  match lookupKey existingWidgets id with
  | some w => w
  | none => createWidget ctorTag region.regionText id isEditing

/-- The function `valueIsInRange` (`utils.ts:169-171`). -/
def valueIsInRange (value start «end» : Int) : Bool :=
  start ≤ value && value ≤ «end»

/-- A selection range `{from, to}` of the editor state. -/
structure SelRange where
  rFrom : Int
  rTo : Int
deriving DecidableEq

/-- The function `checkCursorInRegion` (`utils.ts:115-143`).  Cursor locations are
represented by their `position` field (the `line` field is unused by the
check). -/
def checkCursorInRegion (startIndex endIndex : Int)
    (cursorLocations : List Int) (ranges : List SelRange) : Bool :=
  cursorLocations.any (fun p => valueIsInRange p startIndex endIndex)
  || ranges.any (fun r =>
      valueIsInRange r.rFrom startIndex endIndex
      || valueIsInRange r.rTo startIndex endIndex
      || (decide (r.rFrom ≤ startIndex) && decide (r.rTo ≥ endIndex)))

/-- The method `BasePreviewExtension.createDecoration`
(`basePreviewExtension.ts:227-253`).  The host syntax-tree query
`isInCodeBlock` is an external capability, abstracted as the boolean
`isInCode`; a produced decoration is represented by its widget. -/
def createDecoration (isInCode : Bool) (fieldName : List Char)
    (ctorTag : List Char) (region : RegionData)
    (cursorLocations : List Int) (ranges : List SelRange)
    (editState : List (List Char × Bool))
    (existingWidgets : List (List Char × Widget)) : Option Widget :=
  if isInCode then none
  else if checkCursorInRegion (region.startIndex : Int) (region.endIndex : Int)
      cursorLocations ranges then none
  else
    let contentHash := hashContent region.regionText
    let id := fieldName ++ '-' :: contentHash
    let isEditing := (lookupKey editState id).getD false
    some (getOrCreateWidget ctorTag region id isEditing existingWidgets)

/-- The JavaScript regex `\w` character class. -/
def isWordChar (c : Char) : Bool :=
  ('a' ≤ c && c ≤ 'z') || ('A' ≤ c && c ≤ 'Z') || ('0' ≤ c && c ≤ '9') || c = '_'

/-- Property value: `key="value"` tokens yield strings, bare words and
`key=word` tokens yield booleans. -/
inductive PropValue where
  | str (v : List Char)
  | bool (b : Bool)
deriving DecidableEq

/-- Parsed property map in insertion order (a JavaScript object whose
keys are strings). -/
abbrev PropList := List (List Char × PropValue)

/-- One match of the global regex
`/(\w+)(?:=(?:"([^"]*)"|(\w+)))?/g` used by `parseBlockProperties`:
the key (group 1) and the optional quoted (group 2) or word (group 3)
value. -/
structure PropMatch where
  key : List Char
  quoted : Option (List Char)
  word : Option (List Char)
deriving DecidableEq

/-- Find the next match of the property-token regex and return it with
the remaining input after the match (the regex `lastIndex` position).
When the optional value group cannot match (e.g. `key="unclosed` or
`key=,`), the regex matches the bare key and scanning resumes at the
`=`, exactly as in JavaScript. -/
def nextPropMatch (s : List Char) : Option (PropMatch × List Char) :=
  let s1 := s.dropWhile (fun c => !isWordChar c)
  if s1 = [] then none
  else
    let key := s1.takeWhile isWordChar
    let r := s1.dropWhile isWordChar
    match r with
    | '=' :: r2 =>
      match r2 with
      | c2 :: r3 =>
        if c2 = '"' then
          if '"' ∈ r3 then
            some (⟨key, some (r3.takeWhile (· ≠ '"')), none⟩,
              (r3.dropWhile (· ≠ '"')).drop 1)
          else some (⟨key, none, none⟩, r)
        else if isWordChar c2 then
          some (⟨key, none, some (r2.takeWhile isWordChar)⟩, r2.dropWhile isWordChar)
        else some (⟨key, none, none⟩, r)
      | [] => some (⟨key, none, none⟩, r)
    | _ => some (⟨key, none, none⟩, r)

/-- JavaScript `String.prototype.toLowerCase` on ASCII. -/
def jsToLower (s : List Char) : List Char := s.map Char.toLower

/-- The branch ladder in the `parseBlockProperties` loop
(`utils.ts:285-301`).  Note the JavaScript truthiness tests: an *empty*
quoted value (`key=""`) is falsy, so it sets the boolean `true` flag
rather than the empty string. -/
def propAssign (props : PropList) (m : PropMatch) : PropList :=
  let quotedFalsy := match m.quoted with | none => true | some v => v = []
  let wordFalsy := match m.word with | none => true | some v => v = []
  if quotedFalsy && wordFalsy then setKey props m.key (PropValue.bool true)
  else
    match m.quoted with
    | some v => setKey props m.key (PropValue.str v)
    | none =>
      match m.word with
      | some w => setKey props m.key (PropValue.bool (jsToLower w == chars "true"))
      | none => props

/-- The `matchAll` fold of `parseBlockProperties`; each match consumes at
least one character, so `propString.length + 1` fuel always suffices. -/
def propLoop : Nat → List Char → PropList → PropList
  | 0, _, props => props
  | fuel + 1, s, props =>
    match nextPropMatch s with
    | none => props
    | some (m, rest) => propLoop fuel rest (propAssign props m)

/-- The function `parseBlockProperties` (`utils.ts:271-304`), as a function of the
first capture group of the supplied pattern (`match[1]`; `none` when the
pattern did not match the line).  A missing or empty (falsy) group
returns the empty map. -/
def parseBlockProperties (group : Option (List Char)) : PropList :=
  match group with
  | none => []
  | some s =>
    if s = [] then []
    else
      let propString := jsTrim s
      propLoop (propString.length + 1) propString []

/-- Search loop for `capture1`: the leftmost position where
`pre ++ "("` occurs and a `)` follows on the same line (the lazy `(.*?)`
of the patterns `::tabs\((.*?)\)`, `--tab\((.*?)\)`, ... cannot
cross a newline because `.` does not match `\n`). -/
def capGo (pre line : List Char) : Nat → Nat → Option (List Char)
  | _, 0 => none
  | i, fuel + 1 =>
    if matchAt line (pre ++ ['(']) i then
      let seg := (line.drop (i + pre.length + 1)).takeWhile (· ≠ '\n')
      if ')' ∈ seg then some (seg.takeWhile (· ≠ ')'))
      else capGo pre line (i + 1) fuel
    else capGo pre line (i + 1) fuel

/-- First capture group of a regex of the shape `pre\((.*?)\)` applied
to `line`, e.g. `line.match(/::tabs\((.*?)\)/)[1]`. -/
def capture1 (pre line : List Char) : Option (List Char) :=
  capGo pre line 0 (line.length + 1)

/-- The `updatePreviews` loop with the fallible parts made explicit:
`createDec` stands for the `createDecoration` call chain, whose widget
construction runs arbitrary subclass code and may throw.  The source
contains no `try`/`catch`, so an error aborts the loop and propagates
(`Except.error`), exactly as a JavaScript exception would. -/
def updateGoE (docText startTag : List Char)
    (createDec : RegionData → Except (List Char) (Option Widget)) :
    Nat → Nat → Except (List Char) (List (Nat × Nat × Widget))
  | _, 0 => Except.ok []
  | pos, fuel + 1 =>
    if pos < docText.length then
      match indexOfFrom docText startTag pos with
      | none => Except.ok []
      | some nextTag =>
        match parseContent docText nextTag with
        | some (content, endPos) =>
          if shouldProcessContent content then
            match createDec ⟨content, docText.drop endPos, nextTag, endPos⟩ with
            | Except.error e => Except.error e
            | Except.ok none => updateGoE docText startTag createDec endPos fuel
            | Except.ok (some w) =>
              match updateGoE docText startTag createDec endPos fuel with
              | Except.error e => Except.error e
              | Except.ok rs => Except.ok ((nextTag, endPos, w) :: rs)
          else updateGoE docText startTag createDec endPos fuel
        | none => updateGoE docText startTag createDec (nextTag + startTag.length) fuel
    else Except.ok []

/-- The state-field update entry point `updatePreviews`
(`basePreviewExtension.ts:118-173`): return the old decoration set
unchanged when the transaction does not qualify
(`shouldUpdatePreviews` false), the empty set when the document does not
contain the start tag, and otherwise run the build loop.  There is no
exception handler anywhere in the function. -/
def updatePreviews (oldState : List (Nat × Nat × Widget))
    (shouldUpdate : Bool) (docText startTag : List Char)
    (createDec : RegionData → Except (List Char) (Option Widget)) :
    Except (List Char) (List (Nat × Nat × Widget)) :=
  if !shouldUpdate then Except.ok oldState
  else if !(indexOfFrom docText startTag 0).isSome then Except.ok []
  else updateGoE docText startTag createDec 0 (docText.length + 1)

/-- An emphasis sigil of the pattern `[*_]{1,2}([^*_]+)[*_]{1,2}`. -/
def isEmphChar (c : Char) : Bool := c = '*' || c = '_'

/-- Match `([^*_]+)[*_]{1,2}` at the start of `t`: the captured middle
and the rest after the greedy 1-2 character closer. -/
def emphTail (t : List Char) : Option (List Char × List Char) :=
  let mid := t.takeWhile (fun c => !isEmphChar c)
  if mid = [] then none
  else
    match t.dropWhile (fun c => !isEmphChar c) with
    | [] => none
    | _ :: ar =>
      match ar with
      | a2 :: ar2 => if isEmphChar a2 then some (mid, ar2) else some (mid, ar)
      | [] => some (mid, [])

/-- Match the whole emphasis pattern at the start of `s` (greedy 1-2
character opener with backtracking, as the regex engine does). -/
def tryEmph (s : List Char) : Option (List Char × List Char) :=
  match s with
  | [] => none
  | c1 :: rest1 =>
    if isEmphChar c1 then
      match rest1 with
      | c2 :: rest2 =>
        if isEmphChar c2 then
          match emphTail rest2 with
          | some r => some r
          | none => emphTail rest1
        else emphTail rest1
      | [] => none
    else none

/-- The global replace `replace(e, g1)` where `e` is the emphasis regex
`[*_]{1,2}([^*_]+)[*_]{1,2}` and the replacement is the capture: scan
left to right, substituting each match by its middle.  Every match
consumes at least three characters, so `s.length + 1` fuel suffices. -/
def stripEmph : Nat → List Char → List Char
  | 0, s => s
  | _ + 1, [] => []
  | fuel + 1, c :: cs =>
    match tryEmph (c :: cs) with
    | some (mid, rest) => mid ++ stripEmph fuel rest
    | none => c :: stripEmph fuel cs

/-- The anchored replace of `^#{1,6}\s+` by the empty string. -/
def stripHeading (s : List Char) : List Char :=
  let n := (s.takeWhile (· = '#')).length
  if 1 ≤ n ∧ n ≤ 6 then
    match s.drop n with
    | c :: _ => if isJsSpace c then (s.drop n).dropWhile isJsSpace else s
    | [] => s
  else s

/-- The function `cleanMarkdownString` (`utils.ts:365-370`). -/
def cleanMarkdownString (s : List Char) : List Char :=
  jsTrim (stripHeading (stripEmph (s.length + 1) s))

/-- Result of matching `tabLine` against `--tab(?:\((.*?)\))?\s*(.*)$`: the
optional property group and the trailing title text.  The pattern is
unanchored, so it matches at the first `--tab` occurrence; the optional
group and `.*` always succeed there. -/
def tabTitleMatch (tabLine : List Char) : Option (Option (List Char) × List Char) :=
  match indexOfFrom tabLine (chars "--tab") 0 with
  | none => none
  | some i =>
    let rest := tabLine.drop (i + 5)
    match rest with
    | '(' :: r2 =>
      let seg := r2.takeWhile (· ≠ '\n')
      if ')' ∈ seg then
        some (some (seg.takeWhile (· ≠ ')')),
          ((r2.dropWhile (· ≠ ')')).drop 1).dropWhile isJsSpace)
      else some (none, rest.dropWhile isJsSpace)
    | _ => some (none, rest.dropWhile isJsSpace)

/-- The `TabProperties` object built by `parseTabProperties`: the
cleaned title, the raw title, and the generic block properties merged by
`Object.assign` (a later `title` assignment overwrites any `title`
key coming from the property list). -/
structure TabProps where
  title : List Char
  rawTitle : List Char
  props : PropList
deriving DecidableEq

/-- The function `parseTabProperties` (`utils.ts:309-328`).  The block properties are
parsed only when the captured group is truthy (present and nonempty). -/
def parseTabProperties (tabLine : List Char) : TabProps :=
  match tabTitleMatch tabLine with
  | none => ⟨[], [], []⟩
  | some (g1, g2) =>
    let props :=
      match g1 with
      | some (_ :: _) => parseBlockProperties (capture1 (chars "--tab") tabLine)
      | _ => []
    let rawTitle := jsTrim g2
    ⟨cleanMarkdownString rawTitle, rawTitle, props⟩

/-- Strip the leading `::tabs` header line:
`content.replace(/^::tabs(?:\((.*?)\))?\n?/, '')`. -/
def stripTabsHeader (s : List Char) : List Char :=
  if (chars "::tabs").isPrefixOf s then
    let r := s.drop 6
    match r with
    | '(' :: r2 =>
      let seg := r2.takeWhile (· ≠ '\n')
      if ')' ∈ seg then
        let after := (r2.dropWhile (· ≠ ')')).drop 1
        match after with
        | '\n' :: t => t
        | _ => after
      else r
    | '\n' :: t => t
    | _ => r
  else s

/-- Strip the trailing end marker: `replace(/\n?::$/, '')`. -/
def stripTrailingEnd (s : List Char) : List Char :=
  if (chars "\n::").isSuffixOf s then s.take (s.length - 3)
  else if (chars "::").isSuffixOf s then s.take (s.length - 2)
  else s

/-- One tab of `TabWidget`, mirroring the `TabData` interface
(`tabsWidget.ts:21-25`). -/
structure TabData where
  title : List Char
  content : List Char
  properties : TabProps
deriving DecidableEq

/-- The accumulation loop of `TabWidget.parseTabs`
(`tabsWidget.ts:106-139`): a `--tab` line (after trimming) opens a new
tab; other lines extend the current tab's content; leading lines before
the first `--tab` are dropped. -/
def parseTabsGo : List (List Char) → Option (TabProps × List (List Char)) →
    List TabData → List TabData
  | [], cur, acc =>
    (match cur with
     | some (p, cs) =>
       acc ++ [⟨cleanMarkdownString p.title, joinLines cs, p⟩]
     | none => acc)
  | line :: rest, cur, acc =>
    if (chars "--tab").isPrefixOf (jsTrim line) then
      let p := parseTabProperties line
      match cur with
      | some (p0, cs) =>
        parseTabsGo rest (some (p, []))
          (acc ++ [⟨cleanMarkdownString p0.title, joinLines cs, p0⟩])
      | none => parseTabsGo rest (some (p, [])) acc
    else
      match cur with
      | some (p0, cs) => parseTabsGo rest (some (p0, cs ++ [line])) acc
      | none => parseTabsGo rest none acc

/-- The method `TabWidget.parseTabs` (`tabsWidget.ts:97-142`). -/
def parseTabs (content : List Char) : List TabData :=
  let cleanContent := stripTrailingEnd (stripTabsHeader content)
  parseTabsGo (splitOnChar '\n' cleanContent) none []

/-- The function `getNextRegion` (`utils.ts:70-110`): single-pass region finder with
no depth tracking; the region ends at the first occurrence of the end
tag string at or after the end of the first start tag occurrence. -/
def getNextRegion (workingText : List Char) (startOffset : Nat)
    (wholeDoc startTag endTag : List Char) : Option RegionData :=
  match indexOfFrom workingText startTag 0 with
  | none => none
  | some startPosition =>
    let searchStartIndex := startPosition + startTag.length
    match indexOfFrom workingText endTag searchStartIndex with
    | none => none
    | some endPosition =>
      let startIndex := startOffset + startPosition
      let endIndex := startOffset + endPosition + endTag.length
      some ⟨jsSlice wholeDoc (startIndex : Int) (endIndex : Int),
        wholeDoc.drop endIndex, startIndex, endIndex⟩

/-- The function `getRegionByTags` (`utils.ts:204-212`), a direct wrapper around
`getNextRegion`. -/
def getRegionByTags (workingText : List Char) (startOffset : Nat)
    (wholeDoc startTag endTag : List Char) : Option RegionData :=
  getNextRegion workingText startOffset wholeDoc startTag endTag

/-! ### Helper lemmas about the string model -/

lemma splitOnChar_ne_nil (sep : Char) (s : List Char) : splitOnChar sep s ≠ [] := by
  cases s with
  | nil => simp [splitOnChar]
  | cons c cs =>
    by_cases h : c = sep
    · simp [splitOnChar, h]
    · simp only [splitOnChar, if_neg h]
      cases splitOnChar sep cs <;> simp

lemma dropWhile_eq_self_of_head (p : Char → Bool) (c : Char) (cs : List Char)
    (h : p c = false) : (c :: cs).dropWhile p = c :: cs := by
  simp [List.dropWhile, h]

lemma jsTrim_cons_ends (c1 c2 : Char) (mid : List Char)
    (h1 : isJsSpace c1 = false) (h2 : isJsSpace c2 = false) :
    jsTrim (c1 :: (mid ++ [c2])) = c1 :: (mid ++ [c2]) := by
  unfold jsTrim
  rw [dropWhile_eq_self_of_head _ _ _ h1]
  have hrev : (c1 :: (mid ++ [c2])).reverse = c2 :: (mid.reverse ++ [c1]) := by
    simp
  rw [hrev, dropWhile_eq_self_of_head _ _ _ h2, ← hrev, List.reverse_reverse]

lemma jsTrim_eq_self_of_all (s : List Char) (h : ∀ c ∈ s, isJsSpace c = false) :
    jsTrim s = s := by
  unfold jsTrim
  have h1 : s.dropWhile isJsSpace = s := by
    cases s with
    | nil => rfl
    | cons a t => exact dropWhile_eq_self_of_head _ _ _ (h a (by simp))
  rw [h1]
  have h2 : s.reverse.dropWhile isJsSpace = s.reverse := by
    cases hs : s.reverse with
    | nil => rfl
    | cons a t =>
      refine dropWhile_eq_self_of_head _ _ _ (h a ?_)
      have : a ∈ s.reverse := by rw [hs]; simp
      simpa using this
  rw [h2, List.reverse_reverse]

lemma takeWhile_append_stop (p : Char → Bool) (k : List Char) (c : Char)
    (t : List Char) (hk : ∀ x ∈ k, p x = true) (hc : p c = false) :
    (k ++ c :: t).takeWhile p = k := by
  induction k with
  | nil => simp [List.takeWhile_cons, hc]
  | cons a k2 ih =>
    have ha : p a = true := hk a (by simp)
    simp only [List.cons_append, List.takeWhile_cons, ha, if_true]
    rw [ih (fun x hx => hk x (by simp [hx]))]

lemma dropWhile_append_stop (p : Char → Bool) (k : List Char) (c : Char)
    (t : List Char) (hk : ∀ x ∈ k, p x = true) (hc : p c = false) :
    (k ++ c :: t).dropWhile p = c :: t := by
  induction k with
  | nil => simp [List.dropWhile_cons, hc]
  | cons a k2 ih =>
    have ha : p a = true := hk a (by simp)
    simp only [List.cons_append, List.dropWhile_cons, ha, if_true]
    exact ih (fun x hx => hk x (by simp [hx]))

lemma takeWhile_eq_self_of_all (p : Char → Bool) (l : List Char)
    (h : ∀ x ∈ l, p x = true) : l.takeWhile p = l := by
  induction l with
  | nil => rfl
  | cons a t ih =>
    simp only [List.takeWhile_cons, h a (by simp), if_true]
    rw [ih (fun x hx => h x (by simp [hx]))]

lemma dropWhile_eq_nil_of_all (p : Char → Bool) (l : List Char)
    (h : ∀ x ∈ l, p x = true) : l.dropWhile p = [] := by
  induction l with
  | nil => rfl
  | cons a t ih =>
    simp only [List.dropWhile_cons, h a (by simp), if_true]
    exact ih (fun x hx => h x (by simp [hx]))

/-! ### Lemmas about `joinLines`, `linesLen` and `splitOnChar` -/

lemma joinLines_cons_of_ne_nil (l : List Char) (ls : List (List Char))
    (h : ls ≠ []) : joinLines (l :: ls) = l ++ '\n' :: joinLines ls := by
  cases ls with
  | nil => exact absurd rfl h
  | cons a t => rfl

lemma joinLines_append (xs ys : List (List Char)) (hx : xs ≠ []) (hy : ys ≠ []) :
    joinLines (xs ++ ys) = joinLines xs ++ '\n' :: joinLines ys := by
  induction xs with
  | nil => exact absurd rfl hx
  | cons a t ih =>
    cases t with
    | nil =>
      cases ys with
      | nil => exact absurd rfl hy
      | cons b v => rfl
    | cons b u =>
      have ht : (b :: u : List (List Char)) ≠ [] := by simp
      have h1 : joinLines ((a :: b :: u) ++ ys) =
          a ++ '\n' :: joinLines ((b :: u) ++ ys) := by
        apply joinLines_cons_of_ne_nil
        simp
      rw [h1, ih ht, joinLines_cons_of_ne_nil a (b :: u) ht]
      simp

lemma linesLen_append (xs ys : List (List Char)) :
    linesLen (xs ++ ys) = linesLen xs + linesLen ys := by
  induction xs with
  | nil => simp [linesLen]
  | cons a t ih => simp [linesLen, ih]; omega

lemma joinLines_append_singleton_length (ls : List (List Char)) (x : List Char) :
    (joinLines (ls ++ [x])).length = linesLen ls + x.length := by
  induction ls with
  | nil => simp [joinLines, linesLen]
  | cons a t ih =>
    have : joinLines ((a :: t) ++ [x]) = a ++ '\n' :: joinLines (t ++ [x]) := by
      apply joinLines_cons_of_ne_nil
      simp
    rw [this]
    simp only [List.length_append, List.length_cons, linesLen, ih]
    omega

lemma splitOnChar_no_sep (a : List Char) (ha : '\n' ∉ a) :
    splitOnChar '\n' a = [a] := by
  induction a with
  | nil => rfl
  | cons c cs ih =>
    have hc : ¬(c = '\n') := fun hh => ha (by simp [hh])
    have hcs : '\n' ∉ cs := fun hh => ha (by simp [hh])
    simp only [splitOnChar, if_neg hc, ih hcs]

lemma splitOnChar_sep_append (a t : List Char) (ha : '\n' ∉ a) :
    splitOnChar '\n' (a ++ '\n' :: t) = a :: splitOnChar '\n' t := by
  induction a with
  | nil => simp [splitOnChar]
  | cons c cs ih =>
    have hc : ¬(c = '\n') := fun hh => ha (by simp [hh])
    have hcs : '\n' ∉ cs := fun hh => ha (by simp [hh])
    simp only [List.cons_append, splitOnChar, if_neg hc, List.append_eq, ih hcs]

lemma splitOnChar_join (ls : List (List Char)) (hne : ls ≠ [])
    (h : ∀ l ∈ ls, '\n' ∉ l) : splitOnChar '\n' (joinLines ls) = ls := by
  induction ls with
  | nil => exact absurd rfl hne
  | cons a u ih =>
    cases u with
    | nil => exact splitOnChar_no_sep a (h a (by simp))
    | cons b v =>
      rw [joinLines_cons_of_ne_nil a (b :: v) (by simp),
        splitOnChar_sep_append a _ (h a (by simp)),
        ih (by simp) (fun l hl => h l (by simp [hl]))]

lemma splitOnChar_join_append (ls : List (List Char)) (t : List Char)
    (hne : ls ≠ []) (h : ∀ l ∈ ls, '\n' ∉ l) :
    splitOnChar '\n' (joinLines ls ++ '\n' :: t) = ls ++ splitOnChar '\n' t := by
  induction ls with
  | nil => exact absurd rfl hne
  | cons a u ih =>
    cases u with
    | nil =>
      show splitOnChar '\n' (a ++ '\n' :: t) = a :: splitOnChar '\n' t
      exact splitOnChar_sep_append a t (h a (by simp))
    | cons b v =>
      rw [joinLines_cons_of_ne_nil a (b :: v) (by simp), List.append_assoc,
        List.cons_append, splitOnChar_sep_append a _ (h a (by simp)),
        ih (by simp) (fun l hl => h l (by simp [hl]))]
      rfl

/-! ### Lemmas about `indexOfFrom` -/

lemma indexOfGo_some (s pat : List Char) :
    ∀ fuel i n, indexOfGo s pat i fuel = some n →
      i ≤ n ∧ matchAt s pat n = true ∧
        ∀ j, i ≤ j → j < n → matchAt s pat j = false := by
  intro fuel
  induction fuel with
  | zero => intro i n h; simp [indexOfGo] at h
  | succ f ih =>
    intro i n h
    simp only [indexOfGo] at h
    by_cases hm : matchAt s pat i
    · rw [if_pos hm] at h
      obtain rfl : i = n := by simpa using h
      exact ⟨le_refl _, hm, fun j h1 h2 => absurd (lt_of_le_of_lt h1 h2) (lt_irrefl _)⟩
    · rw [if_neg hm] at h
      obtain ⟨h1, h2, h3⟩ := ih (i + 1) n h
      refine ⟨by omega, h2, fun j hj1 hj2 => ?_⟩
      rcases Nat.eq_or_lt_of_le hj1 with rfl | hlt
      · exact Bool.not_eq_true _ ▸ (by simpa using hm)
      · exact h3 j hlt hj2

lemma indexOfGo_none (s pat : List Char) :
    ∀ fuel i, indexOfGo s pat i fuel = none →
      ∀ j, i ≤ j → j < i + fuel → matchAt s pat j = false := by
  intro fuel
  induction fuel with
  | zero => intro i _ j h1 h2; omega
  | succ f ih =>
    intro i h j h1 h2
    simp only [indexOfGo] at h
    by_cases hm : matchAt s pat i
    · rw [if_pos hm] at h; exact absurd h (by simp)
    · rw [if_neg hm] at h
      rcases Nat.eq_or_lt_of_le h1 with rfl | hlt
      · simpa using hm
      · exact ih (i + 1) h j hlt (by omega)

lemma matchAt_ge_len (s pat : List Char) (hpat : pat ≠ []) (j : Nat)
    (hj : s.length ≤ j) : matchAt s pat j = false := by
  have hdrop : s.drop j = [] := List.drop_eq_nil_of_le hj
  cases pat with
  | nil => exact absurd rfl hpat
  | cons a t => simp [matchAt, hdrop]

lemma matchAt_le_len (s pat : List Char) (hpat : pat ≠ []) (j : Nat)
    (h : matchAt s pat j = true) : j + pat.length ≤ s.length := by
  have hpre : pat <+: s.drop j := by
    simpa [matchAt, List.isPrefixOf_iff_prefix] using h
  have hlen : pat.length ≤ (s.drop j).length := hpre.length_le
  by_cases hj : j ≤ s.length
  · simp only [List.length_drop] at hlen; omega
  · have hnil : s.drop j = [] := List.drop_eq_nil_of_le (by omega)
    rw [hnil, List.prefix_nil] at hpre
    exact absurd hpre hpat

lemma indexOfFrom_none_iff (s pat : List Char) (hpat : pat ≠ []) (start : Nat) :
    indexOfFrom s pat start = none ↔ ∀ j, start ≤ j → matchAt s pat j = false := by
  constructor
  · intro h j hj
    by_cases hjs : j < start + (s.length + 1 - start)
    · exact indexOfGo_none s pat _ start h j hj hjs
    · exact matchAt_ge_len s pat hpat j (by omega)
  · intro h
    cases hres : indexOfFrom s pat start with
    | none => rfl
    | some n =>
      obtain ⟨h1, h2, _⟩ := indexOfGo_some s pat _ start n hres
      rw [h n h1] at h2
      exact absurd h2 (by simp)

lemma indexOfFrom_some (s pat : List Char) (start n : Nat)
    (h : indexOfFrom s pat start = some n) :
    start ≤ n ∧ matchAt s pat n = true ∧
      ∀ j, start ≤ j → j < n → matchAt s pat j = false :=
  indexOfGo_some s pat _ start n h

/-! ### Lemmas about `parseContent` -/

lemma parseContentLoop_some_has_end (text : List Char) :
    ∀ (lines : List (List Char)) pos cs nl stack init r,
      parseContentLoop text lines pos cs nl stack init = some r →
      ∃ l ∈ lines, jsTrim l = chars "::" := by
  intro lines
  induction lines with
  | nil => intro pos cs nl stack init r h; simp [parseContentLoop] at h
  | cons line rest ih =>
    intro pos cs nl stack init r h
    simp only [parseContentLoop] at h
    by_cases h1 : jsTrim line = chars "::"
    · exact ⟨line, by simp, h1⟩
    · rw [if_neg h1] at h
      by_cases h2 : (chars "::").isPrefixOf (jsTrim line) = true
      · rw [if_pos h2] at h
        obtain ⟨l, hl, he⟩ := ih _ _ _ _ _ _ h
        exact ⟨l, by simp [hl], he⟩
      · rw [if_neg h2] at h
        obtain ⟨l, hl, he⟩ := ih _ _ _ _ _ _ h
        exact ⟨l, by simp [hl], he⟩

lemma parseContentLoop_endPos_gt (text : List Char) (s : Nat) :
    ∀ (lines : List (List Char)) pos cs nl stack init c e,
      s ≤ pos → (stack = [] ∨ s < pos) →
      parseContentLoop text lines pos cs nl stack init = some (c, e) →
      s < e := by
  intro lines
  induction lines with
  | nil => intro pos cs nl stack init c e _ _ h; simp [parseContentLoop] at h
  | cons line rest ih =>
    intro pos cs nl stack init c e hle hst h
    cases stack with
    | nil =>
      simp only [parseContentLoop] at h
      by_cases h1 : jsTrim line = chars "::"
      · rw [if_pos h1] at h
        exact ih _ _ _ _ _ _ _ (by omega) (Or.inr (by omega)) h
      · rw [if_neg h1] at h
        by_cases h2 : (chars "::").isPrefixOf (jsTrim line) = true
        · rw [if_pos h2] at h
          exact ih _ _ _ _ _ _ _ (by omega) (Or.inr (by omega)) h
        · rw [if_neg h2] at h
          exact ih _ _ _ _ _ _ _ (by omega) (Or.inr (by omega)) h
    | cons t stack2 =>
      have hst2 : s < pos := hst.resolve_left (by simp)
      simp only [parseContentLoop] at h
      by_cases h1 : jsTrim line = chars "::"
      · rw [if_pos h1] at h
        by_cases h2 : nl - 1 = 0 ∧ t = init
        · rw [if_pos h2] at h
          have he : pos + line.length = e := by
            simpa using congrArg Prod.snd (Option.some.inj h)
          omega
        · rw [if_neg h2] at h
          exact ih _ _ _ _ _ _ _ (by omega) (Or.inr (by omega)) h
      · rw [if_neg h1] at h
        by_cases h2 : (chars "::").isPrefixOf (jsTrim line) = true
        · rw [if_pos h2] at h
          exact ih _ _ _ _ _ _ _ (by omega) (Or.inr (by omega)) h
        · rw [if_neg h2] at h
          exact ih _ _ _ _ _ _ _ (by omega) (Or.inr (by omega)) h

lemma parseContent_endPos_gt (text : List Char) (s : Nat) (c : List Char) (e : Nat)
    (h : parseContent text s = some (c, e)) : s < e :=
  parseContentLoop_endPos_gt text s _ s (-1) 0 [] [] c e (le_refl s) (Or.inl rfl) h

/-! ### Lemmas about the `updatePreviews` scan loop -/

lemma updateGo_mem_bounds (docText startTag : List Char) (keep : RegionData → Bool) :
    ∀ fuel pos r, r ∈ updateGo docText startTag keep pos fuel →
      pos ≤ r.startIndex ∧ r.startIndex < r.endIndex := by
  intro fuel
  induction fuel with
  | zero => intro pos r h; simp [updateGo] at h
  | succ f ih =>
    intro pos r h
    by_cases hpos : pos < docText.length
    · cases hfind : indexOfFrom docText startTag pos with
      | none => simp [updateGo, if_pos hpos, hfind] at h
      | some nextTag =>
        have hge : pos ≤ nextTag := (indexOfFrom_some _ _ _ _ hfind).1
        cases hparse : parseContent docText nextTag with
        | some pr =>
          obtain ⟨content, endPos⟩ := pr
          simp only [updateGo, if_pos hpos, hfind, hparse] at h
          have hlt : nextTag < endPos := parseContent_endPos_gt _ _ _ _ hparse
          by_cases hk : (shouldProcessContent content &&
              keep ⟨content, docText.drop endPos, nextTag, endPos⟩) = true
          · rw [if_pos hk] at h
            rcases List.mem_cons.mp h with rfl | hmem
            · exact ⟨hge, hlt⟩
            · obtain ⟨h1, h2⟩ := ih endPos r hmem
              exact ⟨by omega, h2⟩
          · rw [if_neg hk] at h
            obtain ⟨h1, h2⟩ := ih endPos r h
            exact ⟨by omega, h2⟩
        | none =>
          simp only [updateGo, if_pos hpos, hfind, hparse] at h
          obtain ⟨h1, h2⟩ := ih (nextTag + startTag.length) r h
          exact ⟨by omega, h2⟩
    · simp [updateGo, if_neg hpos] at h

lemma updateGo_pairwise (docText startTag : List Char) (keep : RegionData → Bool) :
    ∀ fuel pos,
      List.Pairwise (fun a b => a.endIndex ≤ b.startIndex ∧ a.startIndex < b.startIndex)
        (updateGo docText startTag keep pos fuel) := by
  intro fuel
  induction fuel with
  | zero => intro pos; simp [updateGo]
  | succ f ih =>
    intro pos
    by_cases hpos : pos < docText.length
    · cases hfind : indexOfFrom docText startTag pos with
      | none => simp [updateGo, if_pos hpos, hfind]
      | some nextTag =>
        cases hparse : parseContent docText nextTag with
        | some pr =>
          obtain ⟨content, endPos⟩ := pr
          simp only [updateGo, if_pos hpos, hfind, hparse]
          have hlt : nextTag < endPos := parseContent_endPos_gt _ _ _ _ hparse
          by_cases hk : (shouldProcessContent content &&
              keep ⟨content, docText.drop endPos, nextTag, endPos⟩) = true
          · rw [if_pos hk]
            refine List.pairwise_cons.mpr ⟨fun r hr => ?_, ih endPos⟩
            obtain ⟨h1, _⟩ := updateGo_mem_bounds docText startTag keep f endPos r hr
            exact ⟨h1, by show nextTag < r.startIndex; omega⟩
          · rw [if_neg hk]
            exact ih endPos
        | none =>
          simp only [updateGo, if_pos hpos, hfind, hparse]
          exact ih (nextTag + startTag.length)
    · simp [updateGo, if_neg hpos]

lemma updateGo_fuel_congr (docText startTag : List Char) (keep : RegionData → Bool)
    (hTag : startTag ≠ []) :
    ∀ f1 f2 pos, docText.length + 1 - pos ≤ f1 → docText.length + 1 - pos ≤ f2 →
      updateGo docText startTag keep pos f1 = updateGo docText startTag keep pos f2 := by
  intro f1
  induction f1 with
  | zero =>
    intro f2 pos hb1 _
    have hpos : ¬ pos < docText.length := by omega
    cases f2 with
    | zero => rfl
    | succ b => simp [updateGo, hpos]
  | succ a ih =>
    intro f2 pos hb1 hb2
    cases f2 with
    | zero =>
      have hpos : ¬ pos < docText.length := by omega
      simp [updateGo, hpos]
    | succ b =>
      by_cases hpos : pos < docText.length
      · cases hfind : indexOfFrom docText startTag pos with
        | none => simp only [updateGo, if_pos hpos, hfind]
        | some nextTag =>
          have hge : pos ≤ nextTag := (indexOfFrom_some _ _ _ _ hfind).1
          cases hparse : parseContent docText nextTag with
          | some pr =>
            obtain ⟨content, endPos⟩ := pr
            simp only [updateGo, if_pos hpos, hfind, hparse]
            have hlt : nextTag < endPos := parseContent_endPos_gt _ _ _ _ hparse
            have hrec : updateGo docText startTag keep endPos a
                = updateGo docText startTag keep endPos b :=
              ih b endPos (by omega) (by omega)
            by_cases hk : (shouldProcessContent content &&
                keep ⟨content, docText.drop endPos, nextTag, endPos⟩) = true
            · rw [if_pos hk, if_pos hk, hrec]
            · rw [if_neg hk, if_neg hk, hrec]
          | none =>
            simp only [updateGo, if_pos hpos, hfind, hparse]
            have htl : 1 ≤ startTag.length := by
              cases startTag with
              | nil => exact absurd rfl hTag
              | cons c cs => simp
            exact ih b (nextTag + startTag.length) (by omega) (by omega)
      · simp only [updateGo, if_neg hpos]

lemma updateGo_all_none (docText startTag : List Char) (keep : RegionData → Bool)
    (hnone : ∀ n, parseContent docText n = none) :
    ∀ fuel pos, updateGo docText startTag keep pos fuel = [] := by
  intro fuel
  induction fuel with
  | zero => intro pos; rfl
  | succ f ih =>
    intro pos
    by_cases hpos : pos < docText.length
    · cases hfind : indexOfFrom docText startTag pos with
      | none => simp only [updateGo, if_pos hpos, hfind]
      | some nextTag =>
        simp only [updateGo, if_pos hpos, hfind, hnone nextTag]
        exact ih _
    · simp only [updateGo, if_neg hpos]

/-! ### Lines of a document suffix are suffixes of the document's lines -/

lemma splitOnChar_drop_one (s : List Char) :
    ∀ l ∈ splitOnChar '\n' (s.drop 1),
      ∃ l0 ∈ splitOnChar '\n' s, l <:+ l0 := by
  cases s with
  | nil => intro l hl; exact ⟨l, by simpa using hl, List.suffix_refl l⟩
  | cons c cs =>
    intro l hl
    simp only [List.drop_one, List.tail_cons] at hl
    by_cases hc : c = '\n'
    · exact ⟨l, by simp [splitOnChar, hc, hl], List.suffix_refl l⟩
    · cases hsp : splitOnChar '\n' cs with
      | nil => exact absurd hsp (splitOnChar_ne_nil _ _)
      | cons x y =>
        rw [hsp] at hl
        have hcsplit : splitOnChar '\n' (c :: cs) = (c :: x) :: y := by
          simp only [splitOnChar, if_neg hc, hsp]
        rcases List.mem_cons.mp hl with rfl | hmem
        · exact ⟨c :: l, by simp [hcsplit], by simp⟩
        · exact ⟨l, by simp [hcsplit, hmem], List.suffix_refl l⟩

lemma splitOnChar_drop (s : List Char) :
    ∀ p, ∀ l ∈ splitOnChar '\n' (s.drop p),
      ∃ l0 ∈ splitOnChar '\n' s, l <:+ l0 := by
  intro p
  induction p generalizing s with
  | zero => intro l hl; exact ⟨l, by simpa using hl, List.suffix_refl l⟩
  | succ q ih =>
    intro l hl
    have hdd : s.drop (q + 1) = (s.drop 1).drop q := by
      rw [List.drop_drop, Nat.add_comm]
    rw [hdd] at hl
    obtain ⟨l1, hl1, hsuf1⟩ := ih (s.drop 1) l hl
    obtain ⟨l0, hl0, hsuf0⟩ := splitOnChar_drop_one s l1 hl1
    exact ⟨l0, hl0, hsuf1.trans hsuf0⟩

/-! ### Step lemmas for the `parseContent` stack scanner -/

lemma parseContentLoop_plains (text : List Char) (plains : List (List Char))
    (h : ∀ l ∈ plains, plainLine l) :
    ∀ rest pos cs nl stack init,
      parseContentLoop text (plains ++ rest) pos cs nl stack init
        = parseContentLoop text rest (pos + linesLen plains) cs nl stack init := by
  induction plains with
  | nil => intro rest pos cs nl stack init; simp [linesLen]
  | cons l ps ih =>
    intro rest pos cs nl stack init
    obtain ⟨_, h1, h2⟩ := h l (by simp)
    have hstep : parseContentLoop text ((l :: ps) ++ rest) pos cs nl stack init
        = parseContentLoop text (ps ++ rest) (pos + l.length + 1) cs nl stack init := by
      cases stack with
      | nil =>
        simp only [List.cons_append, parseContentLoop, if_neg h1]
        rw [if_neg (by simp [h2])]
        rfl
      | cons t st2 =>
        simp only [List.cons_append, parseContentLoop, if_neg h1]
        rw [if_neg (by simp [h2])]
        rfl
    rw [hstep, ih (fun x hx => h x (by simp [hx]))]
    have : pos + l.length + 1 + linesLen ps = pos + linesLen (l :: ps) := by
      simp [linesLen]; omega
    rw [this]

lemma parseContentLoop_start_line (text : List Char) (rest : List (List Char))
    (pos : Nat) (cs nl : Int) (stack : List (List Char)) (init : List Char) :
    parseContentLoop text (chars "::tabs" :: rest) pos cs nl stack init
      = parseContentLoop text rest (pos + 7)
          (if cs = -1 then (pos : Int) else cs) (nl + 1)
          (chars "::tabs" :: stack)
          (if cs = -1 then chars "::tabs" else init) := by
  have h1 : jsTrim (chars "::tabs") = chars "::tabs" := by decide
  have hne : ¬(jsTrim (chars "::tabs") = chars "::") := by decide
  have hpre : (chars "::").isPrefixOf (jsTrim (chars "::tabs")) = true := by decide
  have htag : (jsTrim (chars "::tabs")).takeWhile (fun c => !(isJsSpace c || c = '('))
      = chars "::tabs" := by decide
  have hlen : (chars "::tabs").length = 6 := by decide
  cases stack with
  | nil =>
    simp only [parseContentLoop, if_neg hne, hpre, if_true, htag, hlen]
  | cons t st2 =>
    simp only [parseContentLoop, if_neg hne, hpre, if_true, htag, hlen]

lemma parseContentLoop_end_pop (text : List Char) (rest : List (List Char))
    (pos : Nat) (cs nl : Int) (t : List Char) (stack : List (List Char))
    (init : List Char) (h : ¬(nl - 1 = 0 ∧ t = init)) :
    parseContentLoop text (chars "::" :: rest) pos cs nl (t :: stack) init
      = parseContentLoop text rest (pos + 3) cs (nl - 1) stack init := by
  have h1 : jsTrim (chars "::") = chars "::" := by decide
  have hlen : (chars "::").length = 2 := by decide
  simp only [parseContentLoop, h1, if_true, if_neg h, hlen]

lemma parseContentLoop_end_close (text : List Char) (rest : List (List Char))
    (pos : Nat) (cs nl : Int) (t : List Char) (init : List Char)
    (h1 : nl - 1 = 0) (h2 : t = init) :
    parseContentLoop text (chars "::" :: rest) pos cs nl (t :: []) init
      = some (jsTrim (jsSlice text cs ((pos : Int) + 2)), pos + 2) := by
  have he : jsTrim (chars "::") = chars "::" := by decide
  have hlen : (chars "::").length = 2 := by decide
  simp only [parseContentLoop, he, if_true, if_pos (And.intro h1 h2), hlen]
  rfl

lemma jsSlice_of_drop (text block tail : List Char) (s : Nat)
    (h : text.drop s = block ++ tail) (hne : block ≠ []) :
    jsSlice text (s : Int) ((s + block.length : Nat) : Int) = block := by
  have hs : s ≤ text.length := by
    by_contra hcon
    have : text.drop s = [] := List.drop_eq_nil_of_le (by omega)
    rw [this] at h
    exact hne (List.append_eq_nil.mp h.symm).1
  have hlen : text.length - s = block.length + tail.length := by
    have := congrArg List.length h
    simpa using this
  have hbound : s + block.length ≤ text.length := by omega
  have hidx1 : jsSliceIdx text.length (s : Int) = s := by
    unfold jsSliceIdx
    rw [if_neg (by omega : ¬((s : Int) < 0)), Int.toNat_natCast]
    omega
  have hidx2 : jsSliceIdx text.length ((s + block.length : Nat) : Int)
      = s + block.length := by
    unfold jsSliceIdx
    rw [if_neg (by omega : ¬(((s + block.length : Nat) : Int) < 0)), Int.toNat_natCast]
    omega
  rw [jsSlice, hidx1, hidx2, List.drop_take]
  have : s + block.length - s = block.length := by omega
  rw [this, h]
  exact List.take_left block tail

lemma jsTrim_eq_self_head_last (s : List Char)
    (h2 : ∃ t1, s = ':' :: t1) (h3 : ∃ t2, s = t2 ++ [':']) :
    jsTrim s = s := by
  obtain ⟨t1, ht1⟩ := h2
  obtain ⟨t2, ht2⟩ := h3
  have hd : s.dropWhile isJsSpace = s := by
    rw [ht1]; exact dropWhile_eq_self_of_head _ _ _ (by decide)
  have hrev : s.reverse = ':' :: t2.reverse := by
    rw [ht2]; simp
  rw [jsTrim, hd, hrev, dropWhile_eq_self_of_head _ _ _ (by decide), ← hrev,
    List.reverse_reverse]

lemma parseContentLoop_start_first (text : List Char) (rest : List (List Char))
    (pos : Nat) (nl : Int) (stack : List (List Char)) (init : List Char) :
    parseContentLoop text (chars "::tabs" :: rest) pos (-1) nl stack init
      = parseContentLoop text rest (pos + 7) (pos : Int) (nl + 1)
          (chars "::tabs" :: stack) (chars "::tabs") := by
  rw [parseContentLoop_start_line]
  norm_num

lemma parseContentLoop_start_inner (text : List Char) (rest : List (List Char))
    (pos q : Nat) (nl : Int) (stack : List (List Char)) (init : List Char) :
    parseContentLoop text (chars "::tabs" :: rest) pos ((q : Nat) : Int) nl stack init
      = parseContentLoop text rest (pos + 7) ((q : Nat) : Int) (nl + 1)
          (chars "::tabs" :: stack) init := by
  rw [parseContentLoop_start_line]
  have hq : ¬(((q : Nat) : Int) = -1) := by omega
  simp only [if_neg hq]

/-- Claim C1: for every document containing two nested same-start-tag
`::tabs` blocks — an outer block whose body consists of filler lines
`A`, a complete inner `::tabs` block with filler body `B`, filler lines
`C`, and the outer end marker — `parseContent` started at the outer
start tag closes the innermost open tag at the first end marker (the
first `::` line only pops the stack) and emits the outer region exactly
when the stack returns to empty with the popped tag equal to the initial
tag: the result spans the whole outer block, and the emitted raw text
contains the fully-closed inner region's raw text verbatim. -/
theorem claimC1 (text : List Char) (startPos : Nat) (A B C : List (List Char))
    (hA : forall l, l ∈ A ++ B ++ C → plainLine l)
    (block inner : List Char)
    (hblock : block = joinLines (chars "::tabs" ::
      A ++ chars "::tabs" :: B ++ chars "::" :: C ++ [chars "::"]))
    (hinner : inner = joinLines (chars "::tabs" :: (B ++ [chars "::"])))
    (tail : List Char) (htail : tail = [] ∨ ∃ t2, tail = '\n' :: t2)
    (htext : text.drop startPos = block ++ tail) :
    parseContent text startPos = some (block, startPos + block.length) ∧
      inner <:+: block := by
  have hs : '\n' ∉ chars "::tabs" := by decide
  have heo : '\n' ∉ chars "::" := by decide
  have hAp : ∀ l ∈ A, plainLine l := fun l hl => hA l (by simp [hl])
  have hBp : ∀ l ∈ B, plainLine l := fun l hl => hA l (by simp [hl])
  have hCp : ∀ l ∈ C, plainLine l := fun l hl => hA l (by simp [hl])
  have hnl : ∀ l ∈ (chars "::tabs" ::
      A ++ chars "::tabs" :: B ++ chars "::" :: C ++ [chars "::"]), '\n' ∉ l := by
    intro l hl
    have hl2 : l = chars "::tabs" ∨ l = chars "::" ∨ l ∈ A ∨ l ∈ B ∨ l ∈ C := by
      simp only [List.mem_cons, List.mem_append] at hl
      tauto
    rcases hl2 with rfl | rfl | hx | hx | hx
    · exact hs
    · exact heo
    · exact (hAp l hx).1
    · exact (hBp l hx).1
    · exact (hCp l hx).1
  have hlne : (chars "::tabs" ::
      A ++ chars "::tabs" :: B ++ chars "::" :: C ++ [chars "::"]) ≠ [] := by simp
  obtain ⟨extra, hlines⟩ : ∃ extra, splitOnChar '\n' (text.drop startPos)
      = (chars "::tabs" ::
        A ++ chars "::tabs" :: B ++ chars "::" :: C ++ [chars "::"]) ++ extra := by
    rcases htail with rfl | ⟨t2, rfl⟩
    · refine ⟨[], ?_⟩
      rw [htext, List.append_nil, hblock, List.append_nil]
      exact splitOnChar_join _ hlne hnl
    · refine ⟨splitOnChar '\n' t2, ?_⟩
      rw [htext, hblock]
      exact splitOnChar_join_append _ t2 hlne hnl
  have hrun : parseContent text startPos
      = some (jsTrim (jsSlice text (startPos : Int)
          (((startPos + 7 + linesLen A + 7 + linesLen B + 3 + linesLen C : Nat) : Int) + 2)),
        startPos + 7 + linesLen A + 7 + linesLen B + 3 + linesLen C + 2) := by
    rw [parseContent, hlines]
    have hassoc : (chars "::tabs" ::
        A ++ chars "::tabs" :: B ++ chars "::" :: C ++ [chars "::"]) ++ extra
        = chars "::tabs" :: (A ++ chars "::tabs" ::
            (B ++ chars "::" :: (C ++ chars "::" :: extra))) := by
      simp
    rw [hassoc, parseContentLoop_start_first,
      parseContentLoop_plains text A hAp,
      parseContentLoop_start_inner,
      parseContentLoop_plains text B hBp,
      parseContentLoop_end_pop text _ _ _ _ _ _ _
        (by norm_num : ¬((0 : Int) + 1 + 1 - 1 = 0 ∧
          chars "::tabs" = chars "::tabs")),
      parseContentLoop_plains text C hCp,
      parseContentLoop_end_close text _ _ _ _ _ _
        (by norm_num) rfl]
  -- lengths
  have e1 : (chars "::tabs").length = 6 := by decide
  have e2 : (chars "::").length = 2 := by decide
  have hfront : (chars "::tabs" ::
      A ++ chars "::tabs" :: B ++ chars "::" :: C ++ [chars "::"])
      = (chars "::tabs" :: (A ++ chars "::tabs" :: (B ++ chars "::" :: C)))
        ++ [chars "::"] := by simp
  have hfne : (chars "::tabs" :: (A ++ chars "::tabs" :: (B ++ chars "::" :: C))) ≠ [] := by
    simp
  have hblen : block.length
      = linesLen (chars "::tabs" :: (A ++ chars "::tabs" :: (B ++ chars "::" :: C))) + 2 := by
    rw [hblock, hfront, joinLines_append_singleton_length, e2]
  have hfl : linesLen (chars "::tabs" :: (A ++ chars "::tabs" :: (B ++ chars "::" :: C)))
      = 17 + linesLen A + linesLen B + linesLen C := by
    simp [linesLen, linesLen_append, e1, e2]
    omega
  -- the emitted text is exactly the block
  have hbne : block ≠ [] := by
    intro hcon
    rw [hcon] at hblen
    simp at hblen
  have hcast : ((startPos + 7 + linesLen A + 7 + linesLen B + 3 + linesLen C : Nat) : Int) + 2
      = ((startPos + block.length : Nat) : Int) := by
    push_cast
    omega
  have hblock2 : block = joinLines (chars "::tabs" ::
      (A ++ chars "::tabs" :: (B ++ chars "::" :: (C ++ [chars "::"])))) := by
    rw [hblock]
    congr 1
    simp
  have hRESTne2 : (A ++ chars "::tabs" :: (B ++ chars "::" :: (C ++ [chars "::"]))) ≠ [] := by
    simp
  have hhead : ∃ t1, block = ':' :: t1 := by
    refine ⟨chars ":tabs" ++ '\n' :: joinLines
      (A ++ chars "::tabs" :: (B ++ chars "::" :: (C ++ [chars "::"]))), ?_⟩
    rw [hblock2, joinLines_cons_of_ne_nil _ _ hRESTne2]
    rfl
  have hlast : ∃ t2, block = t2 ++ [':'] := by
    refine ⟨joinLines (chars "::tabs" :: (A ++ chars "::tabs" :: (B ++ chars "::" :: C)))
      ++ ['\n', ':'], ?_⟩
    rw [hblock, hfront, joinLines_append
      (chars "::tabs" :: (A ++ chars "::tabs" :: (B ++ chars "::" :: C)))
      [chars "::"] hfne (by simp)]
    simp [joinLines, (by decide : chars "::" = [':', ':'])]
  have htrim : jsTrim block = block := jsTrim_eq_self_head_last block hhead hlast
  constructor
  · rw [hrun, hcast, jsSlice_of_drop text block tail startPos htext hbne, htrim]
    have harith : startPos + 7 + linesLen A + 7 + linesLen B + 3 + linesLen C + 2
        = startPos + block.length := by omega
    rw [harith]
  · have hlist2 : (chars "::tabs" ::
        A ++ chars "::tabs" :: B ++ chars "::" :: C ++ [chars "::"])
        = (chars "::tabs" :: A) ++ ((chars "::tabs" :: (B ++ [chars "::"]))
            ++ (C ++ [chars "::"])) := by simp
    rw [hblock, hlist2, joinLines_append (chars "::tabs" :: A)
        ((chars "::tabs" :: (B ++ [chars "::"])) ++ (C ++ [chars "::"]))
        (by simp) (by simp),
      joinLines_append (chars "::tabs" :: (B ++ [chars "::"])) (C ++ [chars "::"])
        (by simp) (by simp),
      hinner]
    exact ⟨joinLines (chars "::tabs" :: A) ++ ['\n'],
      '\n' :: joinLines (C ++ [chars "::"]), by simp⟩

theorem claimC1_witness :
    parseContent (chars "::tabs\na\n::tabs\nb\n::\nc\n::") 0
      = some (chars "::tabs\na\n::tabs\nb\n::\nc\n::",
          0 + (chars "::tabs\na\n::tabs\nb\n::\nc\n::").length)
    ∧ chars "::tabs\nb\n::" <:+: chars "::tabs\na\n::tabs\nb\n::\nc\n::" :=
  claimC1 (chars "::tabs\na\n::tabs\nb\n::\nc\n::") 0
    [chars "a"] [chars "b"] [chars "c"] (by decide)
    (chars "::tabs\na\n::tabs\nb\n::\nc\n::") (chars "::tabs\nb\n::")
    (by decide) (by decide) [] (Or.inl rfl) (by decide)


/-! ### Claims C3 and C6 -/

lemma checkCursorInRegion_iff (s e : Int) (locs : List Int) (ranges : List SelRange) :
    checkCursorInRegion s e locs ranges = true ↔
      (∃ c ∈ locs, s ≤ c ∧ c ≤ e) ∨
      ∃ r ∈ ranges, (s ≤ r.rFrom ∧ r.rFrom ≤ e) ∨ (s ≤ r.rTo ∧ r.rTo ≤ e)
        ∨ (r.rFrom ≤ s ∧ e ≤ r.rTo) := by
  simp only [checkCursorInRegion, Bool.or_eq_true, List.any_eq_true, valueIsInRange,
    Bool.and_eq_true, decide_eq_true_eq, ge_iff_le]
  apply or_congr Iff.rfl
  apply exists_congr
  intro r
  apply and_congr Iff.rfl
  tauto

/-- Claim C3: with the region not inside a fenced code block,
`createDecoration` returns no decoration exactly when some caret offset
lies in `[startIndex, endIndex]` inclusive, or some selection range has
its `from` or `to` endpoint inside the region, or some selection range
encloses the region; otherwise the region is decorated. -/
theorem claimC3 (fieldName ctorTag : List Char) (region : RegionData)
    (cursorLocations : List Int) (ranges : List SelRange)
    (editState : List (List Char × Bool))
    (existingWidgets : List (List Char × Widget)) :
    createDecoration false fieldName ctorTag region cursorLocations ranges
        editState existingWidgets = none
      ↔ (∃ c ∈ cursorLocations,
            (region.startIndex : Int) ≤ c ∧ c ≤ (region.endIndex : Int))
        ∨ ∃ r ∈ ranges,
            ((region.startIndex : Int) ≤ r.rFrom ∧ r.rFrom ≤ (region.endIndex : Int))
            ∨ ((region.startIndex : Int) ≤ r.rTo ∧ r.rTo ≤ (region.endIndex : Int))
            ∨ (r.rFrom ≤ (region.startIndex : Int) ∧ (region.endIndex : Int) ≤ r.rTo) := by
  rw [← checkCursorInRegion_iff (region.startIndex : Int) (region.endIndex : Int)
    cursorLocations ranges]
  by_cases h : checkCursorInRegion (region.startIndex : Int) (region.endIndex : Int)
      cursorLocations ranges = true
  · simp [createDecoration, h]
  · simp [createDecoration, h]

/-- Claim C6: parsing a line whose parenthesised property group is
`type="warning" collapsed` yields exactly the map
`{type: "warning", collapsed: true}` (a double-quoted token sets a
string, a bare word sets boolean `true`), and a line with an empty
group yields the empty map. -/
theorem claimC6 :
    parseBlockProperties (capture1 (chars "::tabs")
        (chars "::tabs(type=\"warning\" collapsed)"))
      = [(chars "type", PropValue.str (chars "warning")),
         (chars "collapsed", PropValue.bool true)]
    ∧ parseBlockProperties (capture1 (chars "::tabs") (chars "::tabs()")) = [] := by
  constructor
  · decide
  · decide

/-! ### Claim C10 -/

lemma isWordChar_not_space (c : Char) (h : isWordChar c = true) :
    isJsSpace c = false := by
  by_contra hcon
  have hsp : isJsSpace c = true := by
    cases hval : isJsSpace c
    · exact absurd hval hcon
    · rfl
  simp only [isJsSpace, Bool.or_eq_true, decide_eq_true_eq] at hsp
  rcases hsp with ((((rfl | rfl) | rfl) | rfl) | rfl) | rfl <;>
    exact absurd h (by decide)

/-- Claim C10: a property token of the form `key=word` with an unquoted
word always stores a boolean, never the string: the value is `true`
exactly when the word lower-cases to `true`, and `false` for every
other unquoted word. -/
theorem claimC10 (k w : List Char) (hk : k ≠ []) (hkw : ∀ c ∈ k, isWordChar c = true)
    (hw : w ≠ []) (hww : ∀ c ∈ w, isWordChar c = true) :
    parseBlockProperties (some (k ++ '=' :: w))
      = [(k, PropValue.bool (jsToLower w == chars "true"))] := by
  obtain ⟨kc, kt, rfl⟩ : ∃ kc kt, k = kc :: kt := by
    cases k with
    | nil => exact absurd rfl hk
    | cons kc kt => exact ⟨kc, kt, rfl⟩
  obtain ⟨wc, wt, rfl⟩ : ∃ wc wt, w = wc :: wt := by
    cases w with
    | nil => exact absurd rfl hw
    | cons wc wt => exact ⟨wc, wt, rfl⟩
  have hnospace : ∀ c ∈ (kc :: kt) ++ '=' :: wc :: wt, isJsSpace c = false := by
    intro c hc
    rcases List.mem_append.mp hc with hck | hcw
    · exact isWordChar_not_space c (hkw c hck)
    · rcases List.mem_cons.mp hcw with rfl | hcw2
      · decide
      · exact isWordChar_not_space c (hww c hcw2)
  have hsne : (kc :: kt) ++ '=' :: wc :: wt ≠ [] := by simp
  have hmatch : nextPropMatch ((kc :: kt) ++ '=' :: wc :: wt)
      = some (⟨kc :: kt, none, some (wc :: wt)⟩, []) := by
    have h0 : ((kc :: kt) ++ '=' :: wc :: wt).dropWhile (fun c => !isWordChar c)
        = (kc :: kt) ++ '=' :: wc :: wt :=
      dropWhile_eq_self_of_head _ _ _ (by simp [hkw kc (by simp)])
    have h1 : ((kc :: kt) ++ '=' :: wc :: wt).takeWhile isWordChar = kc :: kt :=
      takeWhile_append_stop _ _ _ _ hkw (by decide)
    have h2 : ((kc :: kt) ++ '=' :: wc :: wt).dropWhile isWordChar = '=' :: wc :: wt :=
      dropWhile_append_stop _ _ _ _ hkw (by decide)
    have hq : ¬(wc = '"') := by
      intro hwq
      have := hww wc (by simp)
      rw [hwq] at this
      exact absurd this (by decide)
    have hwc : isWordChar wc = true := hww wc (by simp)
    have h3 : (wc :: wt).takeWhile isWordChar = wc :: wt :=
      takeWhile_eq_self_of_all _ _ hww
    have h4 : (wc :: wt).dropWhile isWordChar = [] :=
      dropWhile_eq_nil_of_all _ _ hww
    simp only [nextPropMatch, h0, if_neg hsne, h1, h2, if_neg hq, if_pos hwc, h3, h4]
  have htrim : jsTrim ((kc :: kt) ++ '=' :: wc :: wt) = (kc :: kt) ++ '=' :: wc :: wt :=
    jsTrim_eq_self_of_all _ hnospace
  simp only [parseBlockProperties, if_neg hsne, htrim]
  have hlen2 : ((kc :: kt) ++ '=' :: wc :: wt).length + 1
      = (kt.length + wt.length + 3) + 1 := by
    simp only [List.length_append, List.length_cons]
    omega
  rw [hlen2]
  simp only [propLoop, hmatch]
  have hassign : propAssign [] ⟨kc :: kt, none, some (wc :: wt)⟩
      = [(kc :: kt, PropValue.bool (jsToLower (wc :: wt) == chars "true"))] := by
    simp [propAssign, setKey]
  rw [hassign]
  have hnil : nextPropMatch ([] : List Char) = none := by decide
  simp only [propLoop, hnil]

/-- Witness for claim C10: the theorem applied to the token `key=false`. -/
theorem claimC10_witness :
    parseBlockProperties (some (chars "key" ++ '=' :: chars "false"))
      = [(chars "key", PropValue.bool (jsToLower (chars "false") == chars "true"))] :=
  claimC10 (chars "key") (chars "false") (by decide) (by decide) (by decide) (by decide)


/-! ### Claim C2 -/

lemma setKey_mem {β : Type} (m : List (List Char × β)) (k : List Char) (v : β) :
    ∀ kw ∈ setKey m k v, kw ∈ m ∨ kw = (k, v) := by
  induction m with
  | nil =>
    intro kw h
    simp only [setKey, List.mem_singleton] at h
    exact Or.inr h
  | cons a t ih =>
    obtain ⟨a1, a2⟩ := a
    intro kw h
    by_cases hk : a1 = k
    · simp only [setKey, if_pos hk] at h
      rcases List.mem_cons.mp h with rfl | hm
      · exact Or.inr (by rw [hk])
      · exact Or.inl (by simp [hm])
    · simp only [setKey, if_neg hk] at h
      rcases List.mem_cons.mp h with rfl | hm
      · exact Or.inl (by simp)
      · rcases ih kw hm with h1 | h1
        · exact Or.inl (by simp [h1])
        · exact Or.inr h1

lemma lookupKey_mem {β : Type} (m : List (List Char × β)) (k : List Char) (v : β)
    (h : lookupKey m k = some v) : (k, v) ∈ m := by
  induction m with
  | nil => simp [lookupKey] at h
  | cons a t ih =>
    obtain ⟨a1, a2⟩ := a
    simp only [lookupKey] at h
    by_cases hk : a1 = k
    · rw [if_pos hk] at h
      obtain rfl : a2 = v := by simpa using h
      simp [hk]
    · rw [if_neg hk] at h
      exact List.mem_cons_of_mem _ (ih h)

lemma collectExistingWidgets_mem (oldState : List (Nat × Nat × Widget))
    (ctorTag : List Char) :
    ∀ kw ∈ collectExistingWidgets oldState ctorTag,
      kw.2.id = kw.1 ∧ ∃ e ∈ oldState, e.2.2 = kw.2 := by
  suffices h : ∀ (l : List (Nat × Nat × Widget)) (m0 : List (List Char × Widget)),
      (∀ kw ∈ m0, kw.2.id = kw.1 ∧ ∃ e ∈ oldState, e.2.2 = kw.2) →
      (∀ e ∈ l, e ∈ oldState) →
      ∀ kw ∈ l.foldl
        (fun m e =>
          if e.2.2.ctorTag = ctorTag ∧ e.2.2.id ≠ [] then setKey m e.2.2.id e.2.2 else m)
        m0,
        kw.2.id = kw.1 ∧ ∃ e ∈ oldState, e.2.2 = kw.2 by
    intro kw hkw
    exact h oldState [] (by simp) (fun e he => he) kw hkw
  intro l
  induction l with
  | nil =>
    intro m0 hm0 _ kw hkw
    exact hm0 kw hkw
  | cons a t ih =>
    intro m0 hm0 hl kw hkw
    simp only [List.foldl_cons] at hkw
    refine ih _ ?_ (fun e he => hl e (by simp [he])) kw hkw
    intro kw2 hkw2
    by_cases hc : a.2.2.ctorTag = ctorTag ∧ a.2.2.id ≠ []
    · rw [if_pos hc] at hkw2
      rcases setKey_mem m0 _ _ kw2 hkw2 with hm | rfl
      · exact hm0 kw2 hm
      · exact ⟨rfl, a, hl a (by simp), rfl⟩
    · rw [if_neg hc] at hkw2
      exact hm0 kw2 hkw2

lemma lookupKey_collect_none (oldState : List (Nat × Nat × Widget))
    (ctorTag k : List Char) (h : ∀ e ∈ oldState, e.2.2.id ≠ k) :
    lookupKey (collectExistingWidgets oldState ctorTag) k = none := by
  cases hres : lookupKey (collectExistingWidgets oldState ctorTag) k with
  | none => rfl
  | some w =>
    have hmem := lookupKey_mem _ _ _ hres
    obtain ⟨hid, e, he, hw⟩ := collectExistingWidgets_mem oldState ctorTag (k, w) hmem
    exact absurd (hw ▸ hid) (h e he)

/-- Claim C2, amended: when the previous decoration set contains a widget
of the expected constructor under the content-hash id computed from the
region's raw text, `getOrCreateWidget` returns that stored instance
itself; and when no widget of the previous set carries that id, a fresh
widget is constructed.  (The original claim's second half — raw text
differing always forces a fresh widget — is false because the 32-bit
content hash can collide, see `claimC2_counterexample`.) -/
theorem claimC2_amended (oldState : List (Nat × Nat × Widget))
    (ctorTag fieldName : List Char) (region : RegionData) (isEditing : Bool) :
    (∀ w, lookupKey (collectExistingWidgets oldState ctorTag)
        (fieldName ++ '-' :: hashContent region.regionText) = some w →
      getOrCreateWidget ctorTag region
        (fieldName ++ '-' :: hashContent region.regionText) isEditing
        (collectExistingWidgets oldState ctorTag) = w)
    ∧ ((∀ e ∈ oldState, e.2.2.id ≠ fieldName ++ '-' :: hashContent region.regionText) →
      getOrCreateWidget ctorTag region
        (fieldName ++ '-' :: hashContent region.regionText) isEditing
        (collectExistingWidgets oldState ctorTag)
      = createWidget ctorTag region.regionText
          (fieldName ++ '-' :: hashContent region.regionText) isEditing) := by
  constructor
  · intro w hw
    simp [getOrCreateWidget, hw]
  · intro hnone
    simp [getOrCreateWidget, lookupKey_collect_none oldState ctorTag _ hnone]

/-- Counterexample to claim C2 as frozen: the texts `"Aa"` and `"BB"` differ but have
the same 32-bit content hash, so the prior pass's widget for `"Aa"`
(reference token `7`) is reused for the new region with raw text
`"BB"` — no fresh widget is built even though the raw text differs. -/
theorem claimC2_counterexample :
    (RegionData.mk (chars "BB") [] 10 12).regionText ≠ chars "Aa"
    ∧ getOrCreateWidget (chars "TabWidget") (RegionData.mk (chars "BB") [] 10 12)
        (chars "tabsPreview" ++ '-' :: hashContent (chars "BB")) false
        (collectExistingWidgets
          [(0, 2, Widget.mk (chars "Aa")
            (chars "tabsPreview" ++ '-' :: hashContent (chars "Aa"))
            false (chars "TabWidget") 7)]
          (chars "TabWidget"))
      = Widget.mk (chars "Aa")
          (chars "tabsPreview" ++ '-' :: hashContent (chars "Aa"))
          false (chars "TabWidget") 7
    ∧ getOrCreateWidget (chars "TabWidget") (RegionData.mk (chars "BB") [] 10 12)
        (chars "tabsPreview" ++ '-' :: hashContent (chars "BB")) false
        (collectExistingWidgets
          [(0, 2, Widget.mk (chars "Aa")
            (chars "tabsPreview" ++ '-' :: hashContent (chars "Aa"))
            false (chars "TabWidget") 7)]
          (chars "TabWidget"))
      ≠ createWidget (chars "TabWidget") (chars "BB")
          (chars "tabsPreview" ++ '-' :: hashContent (chars "BB")) false := by
  refine ⟨by decide, by decide, by decide⟩

/-- Witness for claim C2: reuse of the stored instance (reference token `5`)
for byte-identical raw text, and fresh construction when the previous
set holds no widget with the computed id. -/
theorem claimC2_witness :
    getOrCreateWidget (chars "TabWidget") (RegionData.mk (chars "Aa") [] 0 2)
        (chars "tabsPreview" ++ '-' :: hashContent
          (RegionData.mk (chars "Aa") [] 0 2).regionText) false
        (collectExistingWidgets
          [(0, 2, Widget.mk (chars "Aa")
            (chars "tabsPreview" ++ '-' :: hashContent (chars "Aa"))
            false (chars "TabWidget") 5)]
          (chars "TabWidget"))
      = Widget.mk (chars "Aa")
          (chars "tabsPreview" ++ '-' :: hashContent (chars "Aa"))
          false (chars "TabWidget") 5
    ∧ getOrCreateWidget (chars "TabWidget") (RegionData.mk (chars "Aa") [] 0 2)
        (chars "tabsPreview" ++ '-' :: hashContent
          (RegionData.mk (chars "Aa") [] 0 2).regionText) false
        (collectExistingWidgets
          [(0, 2, Widget.mk (chars "xy") (chars "other-id")
            false (chars "TabWidget") 5)]
          (chars "TabWidget"))
      = createWidget (chars "TabWidget") (chars "Aa")
          (chars "tabsPreview" ++ '-' :: hashContent
            (RegionData.mk (chars "Aa") [] 0 2).regionText) false := by
  constructor
  · exact (claimC2_amended
      [(0, 2, Widget.mk (chars "Aa")
        (chars "tabsPreview" ++ '-' :: hashContent (chars "Aa"))
        false (chars "TabWidget") 5)]
      (chars "TabWidget") (chars "tabsPreview")
      (RegionData.mk (chars "Aa") [] 0 2) false).1 _ (by decide)
  · exact (claimC2_amended
      [(0, 2, Widget.mk (chars "xy") (chars "other-id")
        false (chars "TabWidget") 5)]
      (chars "TabWidget") (chars "tabsPreview")
      (RegionData.mk (chars "Aa") [] 0 2) false).2 (by decide)

/-! ### Claim C5 -/

lemma parseContent_nil (n : Nat) : parseContent [] n = none := by
  unfold parseContent
  rw [List.drop_nil]
  have h1 : splitOnChar '\n' ([] : List Char) = [[]] := rfl
  rw [h1]
  have hc1 : ¬(jsTrim [] = chars "::") := by decide
  have hc2 : ¬((chars "::").isPrefixOf (jsTrim []) = true) := by decide
  simp only [parseContentLoop, if_neg hc1, if_neg hc2]

/-- Claim C5, amended: `updatePreviews` contains no exception handler.
It returns the previous decoration set unchanged only on the
non-qualifying-transaction path (`shouldUpdatePreviews` false); when the
transaction qualifies and widget/decoration construction throws while
processing the first region, the error propagates out of the entry
point instead of falling back to the previous decoration set. -/
theorem claimC5_amended (oldState : List (Nat × Nat × Widget))
    (docText startTag : List Char)
    (createDec : RegionData → Except (List Char) (Option Widget)) :
    updatePreviews oldState false docText startTag createDec = Except.ok oldState
    ∧ (∀ (err : List Char) (n endPos : Nat) (content : List Char),
        indexOfFrom docText startTag 0 = some n →
        parseContent docText n = some (content, endPos) →
        shouldProcessContent content = true →
        createDec ⟨content, docText.drop endPos, n, endPos⟩ = Except.error err →
        updatePreviews oldState true docText startTag createDec = Except.error err) := by
  constructor
  · simp [updatePreviews]
  · intro err n endPos content hfind hparse hproc hthrow
    have hdoc : docText ≠ [] := by
      intro hcon
      rw [hcon, parseContent_nil] at hparse
      exact absurd hparse (by simp)
    have hlen : 0 < docText.length := List.length_pos.mpr hdoc
    simp only [updatePreviews, Bool.not_true, Bool.false_eq_true, if_false, hfind,
      Option.isSome_some, Bool.not_true]
    simp only [updateGoE, if_pos hlen, hfind, hparse, if_pos hproc, hthrow]

/-- Counterexample to claim C5 as frozen: the claim as stated is false — with a
qualifying transaction over `"::tabs\nx\n::"` and a widget constructor
that throws, the exception escapes `updatePreviews` as an error result
instead of the previous decoration set being returned. -/
theorem claimC5_counterexample :
    updatePreviews [(0, 0, Widget.mk [] [] false [] 0)] true
        (chars "::tabs\nx\n::") (chars "::tabs")
        (fun _ => Except.error (chars "boom"))
      = Except.error (chars "boom")
    ∧ (Except.error (chars "boom")
        : Except (List Char) (List (Nat × Nat × Widget)))
      ≠ Except.ok [(0, 0, Widget.mk [] [] false [] 0)] := by
  constructor
  · rfl
  · simp

/-- Witness for claim C5: the amended theorem applied at a concrete document,
throwing constructor and nonempty previous decoration set. -/
theorem claimC5_witness :
    updatePreviews [(0, 0, Widget.mk [] [] false [] 0)] false
        (chars "::tabs\nx\n::") (chars "::tabs")
        (fun _ => Except.error (chars "boom"))
      = Except.ok [(0, 0, Widget.mk [] [] false [] 0)]
    ∧ updatePreviews [(0, 0, Widget.mk [] [] false [] 0)] true
        (chars "::tabs\nx\n::") (chars "::tabs")
        (fun _ => Except.error (chars "boom"))
      = Except.error (chars "boom") := by
  constructor
  · exact (claimC5_amended [(0, 0, Widget.mk [] [] false [] 0)]
      (chars "::tabs\nx\n::") (chars "::tabs")
      (fun _ => Except.error (chars "boom"))).1
  · exact (claimC5_amended [(0, 0, Widget.mk [] [] false [] 0)]
      (chars "::tabs\nx\n::") (chars "::tabs")
      (fun _ => Except.error (chars "boom"))).2
      (chars "boom") 0 11 (chars "::tabs\nx\n::") (by decide) (by decide)
      (by decide) rfl


/-! ### Claims C7 and C4 -/

/-- Claim C7: for every document text and single block type, the regions
emitted by one build pass form an ordered sequence with strictly
ascending start offsets and pairwise non-overlapping ranges (each
region's scan resumes at the previous region's end position), and every
region is nonempty. -/
theorem claimC7 (docText startTag : List Char) (keep : RegionData → Bool) :
    List.Pairwise (fun a b => a.endIndex ≤ b.startIndex ∧ a.startIndex < b.startIndex)
      (updatePreviewsRegions docText startTag keep)
    ∧ ∀ r ∈ updatePreviewsRegions docText startTag keep,
        r.startIndex < r.endIndex := by
  constructor
  · unfold updatePreviewsRegions
    by_cases h : (indexOfFrom docText startTag 0).isSome
    · rw [if_pos h]
      exact updateGo_pairwise docText startTag keep _ 0
    · rw [if_neg h]
      simp
  · intro r hr
    unfold updatePreviewsRegions at hr
    by_cases h : (indexOfFrom docText startTag 0).isSome
    · rw [if_pos h] at hr
      exact (updateGo_mem_bounds docText startTag keep _ 0 r hr).2
    · rw [if_neg h] at hr
      simp at hr

lemma parseContent_none_of_no_end (docText : List Char)
    (hend : ∀ l ∈ splitOnChar '\n' docText, ∀ t ∈ l.tails, jsTrim t ≠ chars "::") :
    ∀ n, parseContent docText n = none := by
  intro n
  cases hres : parseContent docText n with
  | none => rfl
  | some r =>
    obtain ⟨line, hline, htrim⟩ :=
      parseContentLoop_some_has_end docText _ n (-1) 0 [] [] r hres
    obtain ⟨l0, hl0, hsuf⟩ := splitOnChar_drop docText n line hline
    exact absurd htrim (hend l0 hl0 line ((List.mem_tails line l0).mpr hsuf))

/-- Claim C4: for every document in which no line (nor any line suffix
produced by scanning from an arbitrary offset) trims to the end marker
`::`, the build pass emits zero regions; whenever `parseContent` fails
at a found start tag, the scan position advances past the unmatched
start tag by exactly the start tag's length so later content is still
scanned; and the loop terminates — its result is stable under any
sufficient iteration bound. -/
theorem claimC4 (docText startTag : List Char) (keep : RegionData → Bool)
    (hTag : startTag ≠ [])
    (hend : ∀ l ∈ splitOnChar '\n' docText, ∀ t ∈ l.tails, jsTrim t ≠ chars "::") :
    updatePreviewsRegions docText startTag keep = []
    ∧ (∀ pos fuel n, pos < docText.length →
        indexOfFrom docText startTag pos = some n →
        parseContent docText n = none →
        updateGo docText startTag keep pos (fuel + 1)
          = updateGo docText startTag keep (n + startTag.length) fuel)
    ∧ (∀ pos f1 f2, docText.length + 1 - pos ≤ f1 → docText.length + 1 - pos ≤ f2 →
        updateGo docText startTag keep pos f1 = updateGo docText startTag keep pos f2) := by
  refine ⟨?_, ?_, fun pos f1 f2 h1 h2 =>
    updateGo_fuel_congr docText startTag keep hTag f1 f2 pos h1 h2⟩
  · unfold updatePreviewsRegions
    by_cases h : (indexOfFrom docText startTag 0).isSome
    · rw [if_pos h]
      exact updateGo_all_none docText startTag keep
        (parseContent_none_of_no_end docText hend) _ 0
    · rw [if_neg h]
  · intro pos fuel n hpos hfind hparse
    simp only [updateGo, if_pos hpos, hfind, hparse]

/-- Witness for claim C4: the unterminated document `"::tabs\ncontent"` yields
zero regions. -/
theorem claimC4_witness :
    updatePreviewsRegions (chars "::tabs\ncontent") (chars "::tabs")
      (fun _ => true) = [] :=
  (claimC4 (chars "::tabs\ncontent") (chars "::tabs") (fun _ => true)
    (by decide) (by decide)).1


/-! ### Claim C9 -/

/-- Claim C9, amended: `getRegionByTags` is `getNextRegion`;
`getNextRegion` returns `null` exactly when the working text contains
no occurrence of the start tag, or no occurrence of the end tag string
at or after the end of the first start tag occurrence; otherwise the
region ends at the first occurrence of the end tag string plus the end
tag's length — with no depth tracking, so on nested same-tag input the
region ends at the first `::` occurrence, which lies inside the inner
`::tabs` start tag (not at the innermost end-marker line), unlike the
stack-based `parseContent` which closes the whole outer block. -/
theorem claimC9 (workingText : List Char) (startOffset : Nat)
    (wholeDoc startTag endTag : List Char) (ha : startTag ≠ []) (hb : endTag ≠ []) :
    (getRegionByTags workingText startOffset wholeDoc startTag endTag
        = getNextRegion workingText startOffset wholeDoc startTag endTag)
    ∧ (getNextRegion workingText startOffset wholeDoc startTag endTag = none ↔
        (∀ j, matchAt workingText startTag j = false) ∨
        ∃ p, matchAt workingText startTag p = true ∧
          (∀ q, q < p → matchAt workingText startTag q = false) ∧
          ∀ j, p + startTag.length ≤ j → matchAt workingText endTag j = false)
    ∧ (∀ r, getNextRegion workingText startOffset wholeDoc startTag endTag = some r →
        ∃ p e, matchAt workingText startTag p = true ∧
          (∀ q, q < p → matchAt workingText startTag q = false) ∧
          p + startTag.length ≤ e ∧ matchAt workingText endTag e = true ∧
          (∀ j, p + startTag.length ≤ j → j < e →
            matchAt workingText endTag j = false) ∧
          r.startIndex = startOffset + p ∧
          r.endIndex = startOffset + e + endTag.length ∧
          r.regionText = jsSlice wholeDoc (r.startIndex : Int) (r.endIndex : Int) ∧
          r.remainingText = wholeDoc.drop r.endIndex)
    ∧ ((getNextRegion (chars "::tabs\n::tabs\nx\n::\ny\n::") 0
          (chars "::tabs\n::tabs\nx\n::\ny\n::") (chars "::tabs")
          (chars "::")).map RegionData.endIndex = some 9
        ∧ (parseContent (chars "::tabs\n::tabs\nx\n::\ny\n::") 0).map Prod.snd
          = some 23) := by
  refine ⟨rfl, ?_, ?_, by decide, by decide⟩
  · cases h1 : indexOfFrom workingText startTag 0 with
    | none =>
      simp only [getNextRegion, h1]
      refine iff_of_true trivial (Or.inl ?_)
      intro j
      exact (indexOfFrom_none_iff workingText startTag ha 0).mp h1 j (Nat.zero_le j)
    | some p =>
      obtain ⟨_, hm1, hmin1⟩ := indexOfFrom_some workingText startTag 0 p h1
      cases h2 : indexOfFrom workingText endTag (p + startTag.length) with
      | none =>
        simp only [getNextRegion, h1, h2]
        refine iff_of_true trivial (Or.inr ⟨p, hm1, ?_, ?_⟩)
        · intro q hq
          exact hmin1 q (Nat.zero_le q) hq
        · intro j hj
          exact (indexOfFrom_none_iff workingText endTag hb _).mp h2 j hj
      | some e =>
        obtain ⟨he1, hm2, _⟩ := indexOfFrom_some workingText endTag _ e h2
        simp only [getNextRegion, h1, h2]
        refine iff_of_false (by simp) ?_
        rintro (hcon | ⟨p2, hm2b, hmin2, hnone2⟩)
        · rw [hcon p] at hm1
          exact absurd hm1 (by simp)
        · have hpp : p = p2 := by
            rcases Nat.lt_trichotomy p p2 with hlt | heq | hgt
            · rw [hmin2 p hlt] at hm1
              exact absurd hm1 (by simp)
            · exact heq
            · rw [hmin1 p2 (Nat.zero_le p2) hgt] at hm2b
              exact absurd hm2b (by simp)
          rw [hnone2 e (hpp ▸ he1)] at hm2
          exact absurd hm2 (by simp)
  · intro r hr
    cases h1 : indexOfFrom workingText startTag 0 with
    | none =>
      simp only [getNextRegion, h1] at hr
      exact absurd hr (by simp)
    | some p =>
      cases h2 : indexOfFrom workingText endTag (p + startTag.length) with
      | none =>
        simp only [getNextRegion, h1, h2] at hr
        exact absurd hr (by simp)
      | some e =>
        simp only [getNextRegion, h1, h2] at hr
        obtain ⟨_, hm1, hmin1⟩ := indexOfFrom_some workingText startTag 0 p h1
        obtain ⟨he1, hm2, hmin2⟩ := indexOfFrom_some workingText endTag _ e h2
        have hx := Option.some.inj hr
        subst hx
        exact ⟨p, e, hm1, fun q hq => hmin1 q (Nat.zero_le q) hq, he1, hm2,
          hmin2, rfl, rfl, rfl, rfl⟩

/-- Counterexample to claim C9 as frozen: on the nested document
`"::tabs\n::tabs\nx\n::\ny\n::"` the innermost end-marker line `::`
occupies offsets 16-17 (ending there would give `endIndex` 18), but the
region returned by `getNextRegion` ends at offset 9 — at the `::`
prefix of the *inner start tag* — so the claim's parenthetical "ends at
the first (innermost) end marker" is false. -/
theorem claimC9_counterexample :
    jsTrim (jsSlice (chars "::tabs\n::tabs\nx\n::\ny\n::") 16 18) = chars "::"
    ∧ (getNextRegion (chars "::tabs\n::tabs\nx\n::\ny\n::") 0
        (chars "::tabs\n::tabs\nx\n::\ny\n::") (chars "::tabs")
        (chars "::")).map RegionData.endIndex = some 9
    ∧ ¬((getNextRegion (chars "::tabs\n::tabs\nx\n::\ny\n::") 0
        (chars "::tabs\n::tabs\nx\n::\ny\n::") (chars "::tabs")
        (chars "::")).map RegionData.endIndex = some 18) := by
  refine ⟨by decide, by decide, by decide⟩

/-- Witness for claim C9: the nested-input contrast conjunct of the theorem at
the concrete tags `::tabs`/`::`. -/
theorem claimC9_witness :
    (getNextRegion (chars "::tabs\n::tabs\nx\n::\ny\n::") 0
        (chars "::tabs\n::tabs\nx\n::\ny\n::") (chars "::tabs")
        (chars "::")).map RegionData.endIndex = some 9
    ∧ (parseContent (chars "::tabs\n::tabs\nx\n::\ny\n::") 0).map Prod.snd
      = some 23 :=
  (claimC9 (chars "::tabs\n::tabs\nx\n::\ny\n::") 0
    (chars "::tabs\n::tabs\nx\n::\ny\n::") (chars "::tabs") (chars "::")
    (by decide) (by decide)).2.2.2

/-! ### Claim C8 -/

/-- Claim C8: on the document
`"Intro text\n::tabs\n--tab(icon=\"lucide:info\") First\nHello\n--tab Second\nWorld\n::\nOutro text"`
with the caret at offset 0 (no caret or selection inside the block),
exactly one region is found, spanning only the `::tabs` … `::` lines
(offsets 11 to 77, leaving `"Intro text\n"` and `"\nOutro text"`
untouched), and parsing it yields exactly two tabs: `First` with string
property `icon = "lucide:info"` and content `Hello`, and `Second` with
content `World`. -/
theorem claimC8 :
    updatePreviewsRegions
        (chars "Intro text\n::tabs\n--tab(icon=\"lucide:info\") First\nHello\n--tab Second\nWorld\n::\nOutro text")
        (chars "::tabs")
        (fun r => (createDecoration false (chars "tabsPreview") (chars "TabWidget") r
          [0] [SelRange.mk 0 0] [] []).isSome)
      = [RegionData.mk
          (chars "::tabs\n--tab(icon=\"lucide:info\") First\nHello\n--tab Second\nWorld\n::")
          (chars "\nOutro text") 11 77]
    ∧ (chars "Intro text\n::tabs\n--tab(icon=\"lucide:info\") First\nHello\n--tab Second\nWorld\n::\nOutro text").take 11
      = chars "Intro text\n"
    ∧ (chars "Intro text\n::tabs\n--tab(icon=\"lucide:info\") First\nHello\n--tab Second\nWorld\n::\nOutro text").drop 77
      = chars "\nOutro text"
    ∧ parseTabs
        (chars "::tabs\n--tab(icon=\"lucide:info\") First\nHello\n--tab Second\nWorld\n::")
      = [TabData.mk (chars "First") (chars "Hello")
          (TabProps.mk (chars "First") (chars "First")
            [(chars "icon", PropValue.str (chars "lucide:info"))]),
         TabData.mk (chars "Second") (chars "World")
          (TabProps.mk (chars "Second") (chars "Second") [])] := by
  refine ⟨by decide, by decide, by decide, by decide⟩

end Ginko
